import Mathlib

/-!
# Verification of the LHAtoLCSC matching-and-ranking engine

Shallow embedding of the text normalizer, field scorer, catalog query
engine (mock LCSC server and SQLite mock database) and the BOM item
matcher of the LHAtoLCSC repository, together with proofs and refutations
of the specification claims about them.

Strings are modelled as `List Char` (Python `str` is a sequence of code
points).  Python floats are modelled as `ℚ`; every concrete value used in
a counterexample is exactly representable in binary floating point, so the
comparisons taken by the code agree with the rational model at those
inputs.
-/

namespace LHAtoLCSC

/-! ## Code points used by the normalizer (`tests/mock_lcsc_server.py`, lines 686-696) -/

/-- ω (U+03C9), the lowercase of Ω. -/
def chOmega : Char := Char.ofNat 0x3C9
/-- Ω (U+03A9). -/
def chOmegaU : Char := Char.ofNat 0x3A9
/-- µ, the micro sign (U+00B5). -/
def chMicro : Char := Char.ofNat 0xB5
/-- μ, Greek small mu (U+03BC). -/
def chMuGreek : Char := Char.ofNat 0x3BC
/-- ° (U+00B0). -/
def chDeg : Char := Char.ofNat 0xB0
/-- ± (U+00B1). -/
def chPlusMinus : Char := Char.ofNat 0xB1
/-- ≤ (U+2264). -/
def chLeq : Char := Char.ofNat 0x2264
/-- ≥ (U+2265). -/
def chGeq : Char := Char.ofNat 0x2265
/-- â (U+00E2), lowercase of Â, first char of the mis-decoded sequences. -/
def chACirc : Char := Char.ofNat 0xE2
/-- Â (U+00C2). -/
def chACircU : Char := Char.ofNat 0xC2
/-- î (U+00EE), lowercase of Î. -/
def chICirc : Char := Char.ofNat 0xEE
/-- Î (U+00CE). -/
def chICircU : Char := Char.ofNat 0xCE
/-- © (U+00A9), second char of the mis-decoded Ω. -/
def chCopyright : Char := Char.ofNat 0xA9
/-- ‰ (U+2030), second char of the mis-decoded ≤ and ≥. -/
def chPerMille : Char := Char.ofNat 0x2030
/-- ¤ (U+00A4), third char of the mis-decoded ≤. -/
def chCurrency : Char := Char.ofNat 0xA4
/-- ¥ (U+00A5), third char of the mis-decoded ≥. -/
def chYen : Char := Char.ofNat 0xA5

/-! ## Python string primitives -/

/-- Python `str.lower`, restricted to the code points the normalizer cares
about: ASCII letters plus the uppercase forms Ω, Î, Â of the characters in
the normalizer's replacement table; identity on every other code point. -/
def pyLowerChar (c : Char) : Char :=
  if c = chOmegaU then chOmega
  else if c = chICircU then chICirc
  else if c = chACircU then chACirc
  else c.toLower

/-- Python `str.split()` whitespace: space, tab, newline, carriage return,
vertical tab and form feed (ASCII whitespace; exotic Unicode spaces are not
modelled). -/
def isPyWs (c : Char) : Bool :=
  c.val = 32 || c.val = 9 || c.val = 10 || c.val = 13 || c.val = 11 || c.val = 12

/-- Python `str.split()` (no separator argument): the maximal runs of
non-whitespace characters, in order. -/
def pyWords : List Char → List (List Char)
  | [] => []
  | c :: t =>
    if isPyWs c then pyWords t
    else ((c :: t).takeWhile (fun d => !isPyWs d)) ::
      pyWords ((c :: t).dropWhile (fun d => !isPyWs d))
termination_by s => s.length
decreasing_by
  · simp only [List.length_cons]; omega
  · simp only [List.dropWhile_cons, *]
    simp only [Bool.not_eq_eq_eq_not, Bool.not_true] at *
    simp [*]
    exact Nat.lt_succ_of_le (List.dropWhile_suffix _).sublist.length_le

/-- Python `' '.join(text.split())`: collapse whitespace runs to single
spaces and trim both ends. -/
def pyCollapse (s : List Char) : List Char :=
  List.intercalate [' '] (pyWords s)

/-- Python `str.replace(pat, rep)` for a nonempty pattern: replace every
(left-to-right, non-overlapping) occurrence of `pat` by `rep`.  For the
degenerate empty pattern (never used by the code) the string is returned
unchanged. -/
def replaceAll (pat rep : List Char) : List Char → List Char
  | [] => []
  | c :: t =>
    if h : pat ≠ [] ∧ pat.isPrefixOf (c :: t) then
      rep ++ replaceAll pat rep ((c :: t).drop pat.length)
    else
      c :: replaceAll pat rep t
termination_by s => s.length
decreasing_by
  · have hp : 1 ≤ pat.length := by
      cases pat with
      | nil => exact absurd rfl h.1
      | cons a l => simp
    simp only [List.length_drop, List.length_cons]
    omega
  · simp only [List.length_cons]; omega

/-- Apply a list of `(pattern, replacement)` pairs in order, each by
`str.replace`. -/
def applyReplacements : List (List Char × List Char) → List Char → List Char
  | [], s => s
  | pr :: rest, s => applyReplacements rest (replaceAll pr.1 pr.2 s)

/-- The replacement table of `normalize_text` (`tests/mock_lcsc_server.py`
lines 688-693), in source order.  The text has already been lowercased, so
the patterns are exactly the code points written in the source: both `ω`
replaces on line 688 use U+03C9, the mis-decoded sequences are
`î©` (U+00EE U+00A9), `âµ` (U+00E2 U+00B5), `â°` (U+00E2 U+00B0),
`â±` (U+00E2 U+00B1), `â‰¤` (U+00E2 U+2030 U+00A4) and
`â‰¥` (U+00E2 U+2030 U+00A5). -/
def normReplacements : List (List Char × List Char) :=
  [ ([chOmega], ['o', 'h', 'm']),
    ([chOmega], ['o', 'h', 'm']),
    ([chICirc, chCopyright], ['o', 'h', 'm']),
    ([chMicro], ['u']),
    ([chMuGreek], ['u']),
    ([chACirc, chMicro], ['u']),
    ([chDeg], ['d', 'e', 'g']),
    ([chACirc, chDeg], ['d', 'e', 'g']),
    ([chPlusMinus], ['+', '/', '-']),
    ([chACirc, chPlusMinus], ['+', '/', '-']),
    ([chLeq], ['<', '=']),
    ([chACirc, chPerMille, chCurrency], ['<', '=']),
    ([chGeq], ['>', '=']),
    ([chACirc, chPerMille, chYen], ['>', '=']) ]

/-- `normalize_text` of `tests/mock_lcsc_server.py` (lines 684-696):
lowercase, apply the replacement table in order, then collapse whitespace
(`' '.join(text.split())`). -/
def pyNormalize (s : List Char) : List Char :=
  pyCollapse (applyReplacements normReplacements (s.map pyLowerChar))

/-- Python `str.strip()`: remove leading and trailing whitespace. -/
def pyStrip (s : List Char) : List Char :=
  ((s.dropWhile isPyWs).reverse.dropWhile isPyWs).reverse

/-- Clamp one Python slice index to `[0, n]`, resolving negative indices
from the end of the sequence. -/
def pySliceIdx (n : Nat) (i : Int) : Nat :=
  if i < 0 then (max 0 ((n : Int) + i)).toNat else min i.toNat n

/-- Python `l[start:stop]` (step 1), including negative-index semantics. -/
def pySlice (start stop : Int) (l : List α) : List α :=
  let s := pySliceIdx l.length start
  let e := pySliceIdx l.length stop
  (l.drop s).take (e - s)

/-- Python `pat in s` for strings: `pat` occurs as a contiguous substring. -/
def subIn (pat : List Char) : List Char → Bool
  | [] => pat.isEmpty
  | c :: t => pat.isPrefixOf (c :: t) || subIn pat t

/-! ## `difflib.SequenceMatcher.ratio` (used by the mock server's `fuzzy_ratio`)

The mock server computes `SequenceMatcher(None, s1.lower(), s2.lower()).ratio()`.
`ratio` is `2*M/T` where `M` is the total size of the matching blocks found by
the Ratcliff-Obershelp recursion and `T` the sum of the lengths.  No junk is
supplied and the second sequence is always at most 100 characters (the field
gate), so the autojunk heuristic never fires. -/

/-- Length of the longest common prefix. -/
def commonPrefixLen : List Char → List Char → Nat
  | a :: as, b :: bs => if a = b then commonPrefixLen as bs + 1 else 0
  | _, _ => 0

/-- `find_longest_match` over the whole ranges: the longest block
`a[i:i+k] == b[j:j+k]`, ties broken by least `i`, then least `j`
(difflib returns the maximal block that starts earliest in `a`, then
earliest in `b`; iterating `i` then `j` ascending with strict improvement
realises exactly that choice). -/
def bestBlock (a b : List Char) : Nat × Nat × Nat :=
  (List.range a.length).foldl
    (fun acc i =>
      (List.range b.length).foldl
        (fun acc j =>
          let k := commonPrefixLen (a.drop i) (b.drop j)
          if acc.2.2 < k then (i, j, k) else acc)
        acc)
    (0, 0, 0)

/-- Total matched size of the Ratcliff-Obershelp decomposition
(`get_matching_blocks` summed): take the longest match, recurse on the
pieces to its left and to its right.  The bound check mirrors the
invariant difflib maintains (a block always lies inside the ranges). -/
def roMatches (a b : List Char) : Nat :=
  if h : 0 < (bestBlock a b).2.2 ∧ (bestBlock a b).1 + (bestBlock a b).2.2 ≤ a.length ∧
      (bestBlock a b).2.1 + (bestBlock a b).2.2 ≤ b.length then
    roMatches (a.take (bestBlock a b).1) (b.take (bestBlock a b).2.1) + (bestBlock a b).2.2 +
      roMatches (a.drop ((bestBlock a b).1 + (bestBlock a b).2.2))
        (b.drop ((bestBlock a b).2.1 + (bestBlock a b).2.2))
  else 0
termination_by a.length + b.length
decreasing_by
  · simp only [List.length_take]; omega
  · simp only [List.length_drop]; omega

/-- `SequenceMatcher.ratio()`: `2*M/T`, and `1.0` when both sequences are
empty (difflib's `_calculate_ratio`). -/
def seqRatio (a b : List Char) : ℚ :=
  if a.length + b.length = 0 then 1
  else (2 * roMatches a b : ℚ) / ((a.length : ℚ) + (b.length : ℚ))

/-- `fuzzy_ratio` of the mock server: lowercases both sides, then
`SequenceMatcher.ratio`. -/
def fuzzyRatioD (a b : List Char) : ℚ :=
  seqRatio (a.map pyLowerChar) (b.map pyLowerChar)

/-! ## The mock LCSC server search (`tests/mock_lcsc_server.py`, `search_products`) -/

/-- One product record of the mock server database, with the fields
`score_product` reads (plus the stock count, which the claims about
ordering mention; the server's scorer itself never reads it). -/
structure MockProduct where
  productCode : List Char
  productModel : List Char
  productName : List Char
  brandName : List Char
  packageType : List Char
  productIntroEn : List Char
  parentCatalogName : List Char
  stockNumber : Int
deriving DecidableEq, Repr

/-- The searchable fields of a product in source order (`fields` dict of
`score_product`), each paired with its weight (`code`/`model` ×1.5,
`name`/`brand` ×1.2, rest ×1.0) and already normalized
(`normalized_fields`). -/
def normFields (p : MockProduct) : List (ℚ × List Char) :=
  [ (3/2, pyNormalize p.productCode),
    (3/2, pyNormalize p.productModel),
    (6/5, pyNormalize p.productName),
    (6/5, pyNormalize p.brandName),
    (1, pyNormalize p.packageType),
    (1, pyNormalize p.productIntroEn),
    (1, pyNormalize p.parentCatalogName) ]

/-- `combined_text`: the normalized field values joined by single spaces. -/
def combinedText (p : MockProduct) : List Char :=
  List.intercalate [' '] ((normFields p).map Prod.snd)

/-- The unweighted fuzzy value of one keyword against one field under
the gates: the whole-field ratio (`fuzzy_ratio(keyword, field_value)`),
improved by the ratio against each word of the field of length ≥ 4
within 3 characters of the keyword's length. -/
def fieldFuzzy (kw field : List Char) : ℚ :=
  (pyWords field).foldl
    (fun acc w =>
      if 4 ≤ w.length ∧ (w.length : Int) - kw.length ≤ 3 ∧
          (kw.length : Int) - w.length ≤ 3 ∧ acc < fuzzyRatioD kw w then
        fuzzyRatioD kw w
      else acc)
    (fuzzyRatioD kw field)

/-- The fuzzy score of one (already normalized) keyword against one
normalized field value, before weighting: `1.0` on a substring hit;
otherwise the fuzzy value under the gates `len(keyword) >= 4` and
`len(field) <= 100`; `0` when the gates fail. -/
def kwFieldRaw (kw field : List Char) : ℚ :=
  if subIn kw field then 1
  else if 4 ≤ kw.length ∧ field.length ≤ 100 then fieldFuzzy kw field
  else 0

/-- `best_field_score` for one keyword when the combined text did not
contain it: the maximum over the nonempty fields of the weighted
per-field score (empty fields are `continue`d over). -/
def bestWeighted (kw : List Char) (p : MockProduct) : ℚ :=
  (normFields p).foldl
    (fun acc wf =>
      if wf.2 = [] then acc
      else max acc (wf.1 * kwFieldRaw kw wf.2))
    0

/-- The score one keyword adds to `total_score`: `1.0` on a combined-text
substring hit, otherwise the best weighted field score. -/
def keywordContrib (kw : List Char) (p : MockProduct) : ℚ :=
  if subIn kw (combinedText p) then 1 else bestWeighted kw p

/-- Whether one keyword counts into `keyword_matches`: a combined-text
substring hit, or a best weighted field score of at least 0.75. -/
def keywordMatched (kw : List Char) (p : MockProduct) : Bool :=
  subIn kw (combinedText p) || decide ((3 : ℚ)/4 ≤ bestWeighted kw p)

/-- `score_product`: `1.0` for an empty keyword list; `0` unless every
keyword matched; otherwise `0.7 * avg + 0.3 * completeness` where `avg`
averages the per-keyword contributions and `completeness` is the matched
fraction (necessarily `1`). -/
def scoreProduct (p : MockProduct) (keywords : List (List Char)) : ℚ :=
  if keywords = [] then 1
  else
    let nMatched := (keywords.filter fun kw => keywordMatched (pyNormalize kw) p).length
    if nMatched < keywords.length then 0
    else
      let total := (keywords.map fun kw => keywordContrib (pyNormalize kw) p).sum
      (7/10) * (total / keywords.length) + (3/10) * ((nMatched : ℚ) / keywords.length)

/-- The scored, still unsorted match list: products with positive score,
in database (insertion) order, paired with their scores. -/
def serverScored (db : List MockProduct) (keyword : List Char) : List (ℚ × MockProduct) :=
  db.filterMap fun p =>
    let s := scoreProduct p (pyWords keyword)
    if 0 < s then some (s, p) else none

/-- The ranked result list: `scored_results.sort(reverse=True, key=lambda
x: x[0])` is the stable sort by score descending (Python's sort is
stable; `insertionSort` with this relation computes the same unique
stable ordering), then the scores are dropped. -/
def serverRanked (db : List MockProduct) (keyword : List Char) : List MockProduct :=
  (List.insertionSort (fun x y : ℚ × MockProduct => y.1 ≤ x.1)
    (serverScored db keyword)).map Prod.snd

/-- The `result` payload of the search endpoint. -/
structure ServerResult where
  total : Nat
  currentPage : Int
  pageSize : Int
  productList : List MockProduct
deriving DecidableEq, Repr

/-- `search_products` of the mock server: split the keyword, score and
filter every product, sort by score descending, then return the Python
slice `results[(page-1)*size : (page-1)*size + size]` together with the
pre-pagination total.  No validation of `page` or `page_size` happens. -/
def searchServer (db : List MockProduct) (keyword : List Char)
    (page pageSize : Int) : ServerResult :=
  let results := serverRanked db keyword
  { total := results.length
    currentPage := page
    pageSize := pageSize
    productList :=
      pySlice ((page - 1) * pageSize) ((page - 1) * pageSize + pageSize) results }

/-! ## The SQLite mock database browse query (`tests/mock_db.py`,
`MockDatabase.search_products`, empty-keyword branch, lines 225-258) -/

/-- One row of the `products` table, with the pieces of `product_data`
the browse `ORDER BY` reads: the primary-key code, the stock count and
the `(startNumber, productPrice)` price tiers of `productPriceList`. -/
structure DbProduct where
  productCode : List Char
  stockNumber : Int
  priceList : List (Int × ℚ)
deriving DecidableEq, Repr

/-- The browse sort key computed by the correlated subquery: `SELECT
MIN(CAST(price.productPrice AS REAL)) ... WHERE price > 0 ORDER BY
endAmount DESC LIMIT 1`.  `MIN` is an aggregate, so the subquery yields a
single row and its `ORDER BY ... LIMIT 1` have no effect: the key is the
minimum positive price over all tiers, and SQL `NULL` when no tier has a
positive price. -/
def minPosPrice (p : DbProduct) : Option ℚ :=
  ((p.priceList.map Prod.snd).filter fun q => 0 < q).min?

/-- SQLite `ASC` comparison of the bulk keys: `NULL` sorts before every
value, values by numeric order. -/
def bulkLt : Option ℚ → Option ℚ → Prop
  | none, none => False
  | none, some _ => True
  | some _, none => False
  | some x, some y => x < y

instance : ∀ a b, Decidable (bulkLt a b)
  | none, none => isFalse not_false
  | none, some _ => isTrue trivial
  | some _, none => isFalse not_false
  | some x, some y => inferInstanceAs (Decidable (x < y))

/-- The total browse `ORDER BY` of the empty-keyword branch: minimum
positive price ascending with `NULL` first, then stock descending, then
product code ascending (binary collation: lexicographic by code point,
which agrees with UTF-8 byte order). -/
def browseRel (a b : DbProduct) : Prop :=
  bulkLt (minPosPrice a) (minPosPrice b) ∨
    (minPosPrice a = minPosPrice b ∧
      (b.stockNumber < a.stockNumber ∨
        (a.stockNumber = b.stockNumber ∧ a.productCode ≤ b.productCode)))

instance : DecidableRel browseRel := fun a b => by
  unfold browseRel; infer_instance

/-- SQLite `LIMIT lim OFFSET off`: a negative offset counts as zero, a
negative limit means no limit. -/
def sqliteLimitOffset (lim off : Int) (l : List α) : List α :=
  let l' := l.drop (max 0 off).toNat
  if lim < 0 then l' else l'.take lim.toNat

/-- The browse result: total row count and the ordered page. -/
structure DbResult where
  total : Nat
  currentPage : Int
  pageSize : Int
  productList : List DbProduct
deriving DecidableEq, Repr

/-- `MockDatabase.search_products` with an empty keyword: `COUNT(*)` as
total, the rows ordered by the browse `ORDER BY` (a total order because
`product_code` is the primary key), and the `LIMIT page_size OFFSET
(page-1)*page_size` window.  No validation of `page` or `page_size`. -/
def searchBrowse (db : List DbProduct) (page pageSize : Int) : DbResult :=
  { total := db.length
    currentPage := page
    pageSize := pageSize
    productList :=
      sqliteLimitOffset pageSize ((page - 1) * pageSize)
        (List.insertionSort browseRel db) }

/-! ## rapidfuzz scores (used by `ComponentMatcher._score_products`) -/

/-- Longest common subsequence length, the basis of rapidfuzz's Indel
similarity. -/
def lcsLen : List Char → List Char → Nat
  | [], _ => 0
  | _ :: _, [] => 0
  | a :: as, b :: bs =>
    if a = b then lcsLen as bs + 1
    else max (lcsLen (a :: as) bs) (lcsLen as (b :: bs))
termination_by a b => a.length + b.length

/-- `rapidfuzz.fuzz.ratio`: the normalized Indel similarity scaled to
`[0,100]`, i.e. `100 * 2*lcs/(|a|+|b|)`, and `100` for two empty
strings. -/
def fuzzRatio (a b : List Char) : ℚ :=
  if a.length + b.length = 0 then 100
  else 100 * (2 * (lcsLen a b : ℚ)) / ((a.length : ℚ) + (b.length : ℚ))

/-- Best `fuzzRatio` of `short` against any contiguous substring of
`long`. -/
def partialBest (short long : List Char) : ℚ :=
  (List.range (long.length + 1)).foldl
    (fun acc i =>
      (List.range (long.length - i + 1)).foldl
        (fun acc k => max acc (fuzzRatio short ((long.drop i).take k)))
        acc)
    0

/-- `rapidfuzz.fuzz.partial_ratio`, modelled from its documented
behaviour: the `fuzz.ratio` of the optimal alignment of the shorter
string inside the longer one, embedded as the maximum ratio over all
contiguous substrings of the longer string. -/
def partialRatio (a b : List Char) : ℚ :=
  if a.length ≤ b.length then partialBest a b else partialBest b a

/-! ## The BOM item matcher (`src/lhatolcsc/core/matcher.py`) -/

/-- `LCSCProduct` of `src/lhatolcsc/api/models.py` (scalar fields; the
`datetime`-free ones). -/
structure LCSCProduct where
  product_number : List Char
  product_code : List Char
  product_name : List Char
  manufacturer : List Char
  manufacturer_part : List Char
  description : List Char
  category_id : Int
  category_name : List Char
  stock : Int
  price_tiers : List (Int × ℚ)
  datasheet_url : List Char
  image_url : List Char
  is_available : Bool
  is_pre_sale : Bool
  package_type : List Char
deriving DecidableEq, Repr

/-- `BOMItem` of `src/lhatolcsc/api/models.py`. -/
structure BOMItem where
  row_index : Int
  stock_part_name : List Char
  quantity : Int
  reference_designator : List Char
  description : List Char
  manufacturer : List Char
  mpn : List Char
  lcsc_part_number : List Char
  match_confidence : ℚ
  notes : List Char
deriving DecidableEq, Repr

/-- `MatchResult` of `src/lhatolcsc/api/models.py` (without the
`matched_at` timestamp, which the matcher never sets). -/
structure MatchResult where
  bom_item : BOMItem
  lcsc_product : Option LCSCProduct
  match_score : ℚ
  match_method : List Char
  alternatives : List LCSCProduct
deriving DecidableEq, Repr

/-- `MatchResult.is_matched`: a product was selected. -/
def MatchResult.is_matched (r : MatchResult) : Bool :=
  r.lcsc_product.isSome

/-- The combined weighted score of `_score_products` for one product:
`fuzz.ratio` on the display name (×0.5) and the manufacturer part
(×0.4) and `fuzz.partial_ratio` on the description (×0.1), all on
lowercased text. -/
def productScoreM (term : List Char) (p : LCSCProduct) : ℚ :=
  fuzzRatio (term.map pyLowerChar) (p.product_name.map pyLowerChar) * (1/2) +
  fuzzRatio (term.map pyLowerChar) (p.manufacturer_part.map pyLowerChar) * (2/5) +
  partialRatio (term.map pyLowerChar) (p.description.map pyLowerChar) * (1/10)

/-- `_score_products`: pair each product with its combined score and
stable-sort by score descending (Python's `list.sort` is stable). -/
def scoreProductsM (term : List Char) (products : List LCSCProduct) :
    List (LCSCProduct × ℚ) :=
  List.insertionSort (fun x y : LCSCProduct × ℚ => y.2 ≤ x.2)
    (products.map fun p => (p, productScoreM term p))

/-- The matcher's result cache, keyed by the lowercased, stripped raw
text.  Python's dict is modelled as an association list looked up from
the front; the matcher only ever inserts a key it has just missed, so
prepending is the dict update. -/
abbrev MatchCache := List (List Char × MatchResult)

/-- `cache_key = bom_item.stock_part_name.lower().strip()`. -/
def cacheKey (item : BOMItem) : List Char :=
  pyStrip (item.stock_part_name.map pyLowerChar)

/-- The in-place update `ComponentMatcher.match_item` performs on the
BOM item when a match is accepted (`matcher.py` lines 98-104). -/
def bomUpdate (item : BOMItem) (p : LCSCProduct) (score : ℚ) : BOMItem :=
  { item with
    lcsc_part_number := p.product_number,
    manufacturer := p.manufacturer,
    mpn := p.manufacturer_part,
    description := p.description,
    match_confidence := score }

/-- `ComponentMatcher.match_item`.  The API client is the function
`api : keyword → page_size → products-or-failure`; an `Except.error`
models `search_products` raising.  The value returned is the
`MatchResult` together with the (possibly mutated) BOM item and the
updated cache; Python mutates `bom_item` in place when a match is
accepted (and writes `notes` on error), and because `result.bom_item`
aliases the argument the result carries the mutated item.  The
no-products branch and the nonempty branch are merged on the scored
list, which is empty exactly when `products` is. -/
def matchItem (api : List Char → Nat → Except (List Char) (List LCSCProduct))
    (threshold : ℚ) (cache : MatchCache) (item : BOMItem) (maxAlt : Nat) :
    MatchResult × BOMItem × MatchCache :=
  match cache.lookup (cacheKey item) with
  | some r => (r, item, cache)
  | none =>
    match api item.stock_part_name (maxAlt + 5) with
    | .error e =>
      let item' := { item with notes := "Error: ".data ++ e }
      ({ bom_item := item', lcsc_product := none, match_score := 0,
         match_method := "error".data, alternatives := [] }, item', cache)
    | .ok products =>
      match scoreProductsM item.stock_part_name products with
      | [] =>
        let r : MatchResult :=
          { bom_item := item, lcsc_product := none, match_score := 0,
            match_method := "none".data, alternatives := [] }
        (r, item, (cacheKey item, r) :: cache)
      | (best, bestScore) :: rest =>
        let alternatives := (rest.take (maxAlt - 1)).map Prod.fst
        let method := if bestScore = 100 then "exact".data else "fuzzy".data
        if threshold ≤ bestScore then
          let item' := bomUpdate item best bestScore
          let r : MatchResult :=
            { bom_item := item', lcsc_product := some best,
              match_score := bestScore, match_method := method,
              alternatives := alternatives }
          (r, item', (cacheKey item, r) :: cache)
        else
          let r : MatchResult :=
            { bom_item := item, lcsc_product := none,
              match_score := bestScore, match_method := "none".data,
              alternatives := alternatives }
          (r, item, (cacheKey item, r) :: cache)

/-- `ComponentMatcher.batch_match`: match every item in input order with
the default `max_alternatives = 5`, threading the cache (the progress
callback is a pure side effect and is not modelled). -/
def batchMatch (api : List Char → Nat → Except (List Char) (List LCSCProduct))
    (threshold : ℚ) : List BOMItem → MatchCache → List MatchResult × MatchCache
  | [], cache => ([], cache)
  | item :: rest, cache =>
    let out := matchItem api threshold cache item 5
    let outs := batchMatch api threshold rest out.2.2
    (out.1 :: outs.1, outs.2)

/-! ## Spec-side comparison definitions (used only to state refuted claims) -/

/-- From the claim's words (C1): "the unit price at its highest
`min_quantity` price tier having a positive price", `none` when no tier
has a positive price. -/
def specBestBulkPrice (p : DbProduct) : Option ℚ :=
  ((p.priceList.filter fun t => 0 < t.2).foldl
    (fun acc t =>
      match acc with
      | none => some t
      | some u => if u.1 < t.1 then some t else acc)
    none).map Prod.snd

/-- From the claim's words (C3): some field matches the token — the
token is an exact substring of the field, or the fuzzy edit ratio
between token and field is at least 0.75 under the 4-character-minimum
token and 100-character-maximum field gates. -/
def specTokenFieldMatch (kw : List Char) (p : MockProduct) : Prop :=
  ∃ wf ∈ normFields p,
    subIn kw wf.2 = true ∨
      (4 ≤ kw.length ∧ wf.2.length ≤ 100 ∧ (3 : ℚ)/4 ≤ fieldFuzzy kw wf.2)

instance (kw : List Char) (p : MockProduct) : Decidable (specTokenFieldMatch kw p) := by
  unfold specTokenFieldMatch; infer_instance

/-! ## Concrete fixtures for counterexamples and witnesses -/

/-- A server product whose model is `abef` and whose other fields are
empty. -/
def prodAbef : MockProduct := ⟨[], "abef".data, [], [], [], [], [], 0⟩

/-- Model `r1`, code `a`, stock 5. -/
def prodR1a : MockProduct := ⟨"a".data, "r1".data, [], [], [], [], [], 5⟩

/-- Model `r1`, code `b`, stock 100. -/
def prodR1b : MockProduct := ⟨"b".data, "r1".data, [], [], [], [], [], 100⟩

/-- Three otherwise-empty server products with distinct codes. -/
def prodQ1 : MockProduct := ⟨"q1".data, [], [], [], [], [], [], 0⟩
/-- Second of the three. -/
def prodQ2 : MockProduct := ⟨"q2".data, [], [], [], [], [], [], 0⟩
/-- Third of the three. -/
def prodQ3 : MockProduct := ⟨"q3".data, [], [], [], [], [], [], 0⟩

/-- DB row `a`: tiers `(1, 0.01), (100, 0.05)` — the highest-quantity
tier is the more expensive one. -/
def dbRowA : DbProduct := ⟨"a".data, 0, [(1, 1/100), (100, 1/20)]⟩

/-- DB row `b`: single tier `(1, 0.03)`. -/
def dbRowB : DbProduct := ⟨"b".data, 0, [(1, 3/100)]⟩

/-- DB row `c`: no price tiers at all. -/
def dbRowNoTier : DbProduct := ⟨"c".data, 0, []⟩

/-- An `LCSCProduct` with every field empty/zero. -/
def emptyProd : LCSCProduct :=
  ⟨[], [], [], [], [], [], 0, [], 0, [], [], [], false, false, []⟩

/-- A catalog product entirely unlike the query text `ab`. -/
def prodXy : LCSCProduct :=
  { emptyProd with
    product_number := "Q1".data, product_name := "xy".data,
    manufacturer_part := "xy".data, description := "xy".data }

/-- A catalog product that matches the query text `r1` exactly. -/
def prodR1 : LCSCProduct :=
  { emptyProd with
    product_number := "C1".data, product_code := "C1".data,
    product_name := "r1".data, manufacturer := "acme".data,
    manufacturer_part := "r1".data, description := "r1".data }

/-- BOM line with raw text `ab`. -/
def itemAb : BOMItem := ⟨1, "ab".data, 1, [], [], [], [], [], 0, []⟩

/-- BOM line with raw text `r1`. -/
def itemR1 : BOMItem := ⟨1, "r1".data, 1, [], [], [], [], [], 0, []⟩

/-- A distinct BOM line whose raw text ` R1 ` normalizes to the same
cache key `r1`. -/
def itemR1b : BOMItem := ⟨2, " R1 ".data, 1, [], [], [], [], [], 0, []⟩

/-- An API client that always finds exactly `prodXy`. -/
def apiOkXy : List Char → Nat → Except (List Char) (List LCSCProduct) :=
  fun _ _ => .ok [prodXy]

/-- An API client that always finds exactly `prodR1`. -/
def apiOkR1 : List Char → Nat → Except (List Char) (List LCSCProduct) :=
  fun _ _ => .ok [prodR1]

/-- An API client that always raises (message `x`). -/
def apiErrX : List Char → Nat → Except (List Char) (List LCSCProduct) :=
  fun _ _ => .error "x".data

/-- The accepted match result produced for `itemR1` against `prodR1`. -/
def resR1 : MatchResult :=
  { bom_item := bomUpdate itemR1 prodR1 100, lcsc_product := some prodR1,
    match_score := 100, match_method := "exact".data, alternatives := [] }

/-! # Theorems

## Helper lemmas -/

theorem infix_pySlice (start stop : Int) (l : List α) :
    pySlice start stop l <:+: l := by
  unfold pySlice
  exact (List.take_prefix _ _).isInfix.trans (List.drop_suffix _ _).isInfix

theorem infix_sqliteLimitOffset (lim off : Int) (l : List α) :
    sqliteLimitOffset lim off l <:+: l := by
  unfold sqliteLimitOffset
  split
  · exact (List.drop_suffix _ _).isInfix
  · exact (List.take_prefix _ _).isInfix.trans (List.drop_suffix _ _).isInfix

/-! ## Ground evaluations of the matcher fixtures -/

theorem cacheKey_itemAb : cacheKey itemAb = "ab".data := by
  norm_num +decide [cacheKey, itemAb, pyStrip, isPyWs, pyLowerChar, Char.toLower,
    String.data]

set_option maxHeartbeats 1000000 in
theorem scoreProductsM_ab_xy : scoreProductsM "ab".data [prodXy] = [(prodXy, 0)] := by
  norm_num +decide [scoreProductsM, productScoreM, prodXy, emptyProd, fuzzRatio, lcsLen,
    partialRatio, partialBest, List.range_succ, pyLowerChar, Char.toLower, String.data]

set_option maxHeartbeats 1000000 in
theorem scoreProductsM_r1 : scoreProductsM "r1".data [prodR1] = [(prodR1, 100)] := by
  norm_num +decide [scoreProductsM, productScoreM, prodR1, emptyProd, fuzzRatio, lcsLen,
    partialRatio, partialBest, List.range_succ, pyLowerChar, Char.toLower, String.data]

theorem cacheKey_itemR1 : cacheKey itemR1 = "r1".data := by
  norm_num +decide [cacheKey, itemR1, pyStrip, isPyWs, pyLowerChar, Char.toLower,
    String.data]

theorem cacheKey_itemR1b : cacheKey itemR1b = "r1".data := by
  norm_num +decide [cacheKey, itemR1b, pyStrip, isPyWs, pyLowerChar, Char.toLower,
    String.data]

theorem matchItem_r1_eval :
    matchItem apiOkR1 75 [] itemR1 5 =
      (resR1, bomUpdate itemR1 prodR1 100, [("r1".data, resR1)]) := by
  have hs : scoreProductsM itemR1.stock_part_name [prodR1] = [(prodR1, 100)] :=
    scoreProductsM_r1
  have hl : List.lookup (cacheKey itemR1) ([] : MatchCache) = none := rfl
  simp only [matchItem, hl, apiOkR1, hs, cacheKey_itemR1, resR1]
  norm_num

theorem matchItem_xy_eval :
    matchItem apiOkXy 75 [] itemAb 5 =
      ({ bom_item := itemAb, lcsc_product := none, match_score := 0,
         match_method := "none".data, alternatives := [] }, itemAb,
       [("ab".data,
         { bom_item := itemAb, lcsc_product := none, match_score := 0,
           match_method := "none".data, alternatives := [] })]) := by
  have hs : scoreProductsM itemAb.stock_part_name [prodXy] = [(prodXy, 0)] :=
    scoreProductsM_ab_xy
  have hl : List.lookup (cacheKey itemAb) ([] : MatchCache) = none := rfl
  simp only [matchItem, hl, apiOkXy, hs, cacheKey_itemAb]
  norm_num

/-! ## C10 — cache-hit behaviour of the matcher -/

/-- C10: the match cache is keyed by the lowercased, trimmed raw text,
and on a hit the stored `MatchResult` is returned unchanged: no query is
issued (the API client is irrelevant to the output), the result still
carries the BOM item stored at the first call, and the argument item is
returned without any update, whatever the cached result's outcome was. -/
theorem matchItem_cache_hit
    (api : List Char → Nat → Except (List Char) (List LCSCProduct))
    (threshold : ℚ) (cache : MatchCache) (item : BOMItem) (maxAlt : Nat)
    (r : MatchResult) (h : List.lookup (cacheKey item) cache = some r) :
    matchItem api threshold cache item maxAlt = (r, item, cache) := by
  simp only [matchItem, h]

/-- Witness for C10: a first call on `r1` caches an accepted result; a
second call with a *different* BOM item (` R1 `, same key) and a failing
API client still returns the first call's result — whose `bom_item` is
the first, mutated item, not the second argument — and leaves the second
item and the cache untouched. -/
theorem matchItem_cache_hit_witness :
    matchItem apiErrX 75 [("r1".data, resR1)] itemR1b 5 =
      (resR1, itemR1b, [("r1".data, resR1)]) ∧
    (matchItem apiOkR1 75 [] itemR1 5).2.2 = [("r1".data, resR1)] ∧
    resR1.bom_item ≠ itemR1b :=
  ⟨matchItem_cache_hit apiErrX 75 [("r1".data, resR1)] itemR1b 5 resR1
      (by rw [cacheKey_itemR1b]; rfl),
    by rw [matchItem_r1_eval],
    by simp [resR1, bomUpdate, itemR1, itemR1b]⟩

/-! ## C2 — threshold gate and the alternatives list -/

/-- C2 (amended): when candidates exist and the best combined score is
below the confidence threshold, the result has no selected record and
method `"none"`, but the best candidate is *excluded* from the
alternatives list, which consists of the candidates ranked 2 through
`max_alternatives` (`scored_products[1:max_alternatives]`). -/
theorem matchItem_below_threshold
    (api : List Char → Nat → Except (List Char) (List LCSCProduct))
    (threshold : ℚ) (cache : MatchCache) (item : BOMItem) (maxAlt : Nat)
    (products : List LCSCProduct) (best : LCSCProduct) (bestScore : ℚ)
    (rest : List (LCSCProduct × ℚ))
    (hc : List.lookup (cacheKey item) cache = none)
    (ha : api item.stock_part_name (maxAlt + 5) = .ok products)
    (hs : scoreProductsM item.stock_part_name products = (best, bestScore) :: rest)
    (hlt : bestScore < threshold) :
    (matchItem api threshold cache item maxAlt).1.lcsc_product = none ∧
    (matchItem api threshold cache item maxAlt).1.match_method = "none".data ∧
    (matchItem api threshold cache item maxAlt).1.alternatives =
      (rest.take (maxAlt - 1)).map Prod.fst := by
  simp only [matchItem, hc, ha, hs, if_neg (not_le.mpr hlt)]
  refine ⟨?_, ?_, ?_⟩ <;> trivial

/-- Witness for C2 (amended): the single candidate `xy` scores 0 against
`ab`, below the threshold 75; the result is `"none"` with no selected
record and the post-best candidate list is empty. -/
theorem matchItem_below_threshold_witness :
    (matchItem apiOkXy 75 [] itemAb 5).1.lcsc_product = none ∧
    (matchItem apiOkXy 75 [] itemAb 5).1.match_method = "none".data ∧
    (matchItem apiOkXy 75 [] itemAb 5).1.alternatives =
      (([] : List (LCSCProduct × ℚ)).take (5 - 1)).map Prod.fst :=
  matchItem_below_threshold apiOkXy 75 [] itemAb 5 [prodXy] prodXy 0 []
    rfl rfl scoreProductsM_ab_xy (by norm_num)

/-- Counterexample to C2 as stated: the claim says the rejected best
candidate "still appears in the result's alternatives list"; here
`prodXy` is the best (and only) candidate, the score 0 is below the
threshold, `method = "none"` — and the alternatives list is empty, so
the best candidate does not appear in it. -/
theorem matchItem_best_not_in_alternatives :
    scoreProductsM itemAb.stock_part_name [prodXy] = [(prodXy, 0)] ∧
    (matchItem apiOkXy 75 [] itemAb 5).1.match_method = "none".data ∧
    (matchItem apiOkXy 75 [] itemAb 5).1.lcsc_product = none ∧
    prodXy ∉ (matchItem apiOkXy 75 [] itemAb 5).1.alternatives := by
  refine ⟨scoreProductsM_ab_xy, ?_, ?_, ?_⟩ <;> rw [matchItem_xy_eval] <;> simp

/-! ## C7 — mutation of the BOM line -/

/-- C7 (amended): on a cache miss the matcher returns the BOM line
unchanged only when it neither accepts a match nor fails: when a match
is accepted the line's identification fields are overwritten from the
selected product (`bomUpdate`), and on an API failure the line's `notes`
field is overwritten with the error message. -/
theorem matchItem_mutation_cases
    (api : List Char → Nat → Except (List Char) (List LCSCProduct))
    (threshold : ℚ) (cache : MatchCache) (item : BOMItem) (maxAlt : Nat)
    (hc : List.lookup (cacheKey item) cache = none) :
    (∀ p, (matchItem api threshold cache item maxAlt).1.lcsc_product = some p →
        (matchItem api threshold cache item maxAlt).2.1 =
          bomUpdate item p (matchItem api threshold cache item maxAlt).1.match_score) ∧
    ((matchItem api threshold cache item maxAlt).1.lcsc_product = none →
        (matchItem api threshold cache item maxAlt).1.match_method ≠ "error".data →
        (matchItem api threshold cache item maxAlt).2.1 = item) ∧
    ((matchItem api threshold cache item maxAlt).1.match_method = "error".data →
        ∃ e, (matchItem api threshold cache item maxAlt).2.1 =
          { item with notes := "Error: ".data ++ e }) := by
  cases ha : api item.stock_part_name (maxAlt + 5) with
  | error e =>
    simp only [matchItem, hc, ha]
    refine ⟨?_, ?_, ?_⟩
    · intro p hp; exact absurd hp (by simp)
    · intro _ hm; exact absurd rfl hm
    · intro _; exact ⟨e, rfl⟩
  | ok products =>
    cases hs : scoreProductsM item.stock_part_name products with
    | nil =>
      simp only [matchItem, hc, ha, hs]
      refine ⟨?_, ?_, ?_⟩
      · intro p hp; exact absurd hp (by simp)
      · intro _ _; trivial
      · intro hm; exact absurd hm (by decide)
    | cons hd rest =>
      obtain ⟨best, bestScore⟩ := hd
      by_cases hth : threshold ≤ bestScore
      · simp only [matchItem, hc, ha, hs, if_pos hth]
        refine ⟨?_, ?_, ?_⟩
        · intro p hp
          obtain rfl : best = p := by simpa using hp
          rfl
        · intro hp; exact absurd hp (by simp)
        · intro hm
          split at hm <;> exact absurd hm (by decide)
      · simp only [matchItem, hc, ha, hs, if_neg hth]
        refine ⟨?_, ?_, ?_⟩
        · intro p hp; exact absurd hp (by simp)
        · intro _ _; trivial
        · intro hm; exact absurd hm (by decide)

/-- Witness for C7 (amended): a below-threshold call leaves the item
untouched, via the unchanged-case conjunct. -/
theorem matchItem_mutation_cases_witness :
    (matchItem apiOkXy 75 [] itemAb 5).2.1 = itemAb :=
  (matchItem_mutation_cases apiOkXy 75 [] itemAb 5 rfl).2.1
    (by rw [matchItem_xy_eval]) (by rw [matchItem_xy_eval]; decide)

/-- Counterexample to C7 as stated: an accepted match mutates the BOM
line — the returned item differs from the argument (its LCSC part
number, manufacturer, MPN, description and confidence were written). -/
theorem matchItem_mutates_on_accept :
    (matchItem apiOkR1 75 [] itemR1 5).1.is_matched = true ∧
    (matchItem apiOkR1 75 [] itemR1 5).2.1 ≠ itemR1 := by
  rw [matchItem_r1_eval]
  exact ⟨rfl, by simp [bomUpdate, itemR1, prodR1, emptyProd]⟩

/-! ## C8 — error handling and batch totality -/

/-- C8: when the API client raises on a cache miss, the result has
method `"error"` with the failure message attached to the item's notes,
the failing result is *not* cached (the cache is returned unchanged, so
a retry re-attempts scoring), and `batch_match` always returns exactly
one result per input line, in input order. -/
theorem matchItem_error_uncached_and_batch_total :
    (∀ (api : List Char → Nat → Except (List Char) (List LCSCProduct))
        (threshold : ℚ) (cache : MatchCache) (item : BOMItem) (maxAlt : Nat)
        (e : List Char),
      List.lookup (cacheKey item) cache = none →
      api item.stock_part_name (maxAlt + 5) = .error e →
      (matchItem api threshold cache item maxAlt).1.match_method = "error".data ∧
      (matchItem api threshold cache item maxAlt).1.bom_item.notes = "Error: ".data ++ e ∧
      (matchItem api threshold cache item maxAlt).2.2 = cache) ∧
    (∀ (api : List Char → Nat → Except (List Char) (List LCSCProduct))
        (threshold : ℚ) (items : List BOMItem) (cache : MatchCache),
      (batchMatch api threshold items cache).1.length = items.length) := by
  constructor
  · intro api threshold cache item maxAlt e hc ha
    simp only [matchItem, hc, ha]
    refine ⟨?_, ?_, ?_⟩ <;> trivial
  · intro api threshold items
    induction items with
    | nil => intro cache; rfl
    | cons i rest ih =>
      intro cache
      simp only [batchMatch, List.length_cons]
      rw [ih]

/-- Witness for C8: a concrete failing client produces an `"error"`
result with the message in the notes and an unchanged cache, and a
two-line batch against it still yields two results. -/
theorem matchItem_error_uncached_and_batch_total_witness :
    ((matchItem apiErrX 75 [] itemAb 5).1.match_method = "error".data ∧
      (matchItem apiErrX 75 [] itemAb 5).1.bom_item.notes = "Error: ".data ++ "x".data ∧
      (matchItem apiErrX 75 [] itemAb 5).2.2 = []) ∧
    (batchMatch apiErrX 75 [itemAb, itemR1] []).1.length = [itemAb, itemR1].length :=
  ⟨matchItem_error_uncached_and_batch_total.1 apiErrX 75 [] itemAb 5 "x".data rfl rfl,
    matchItem_error_uncached_and_batch_total.2 apiErrX 75 [itemAb, itemR1] []⟩

/-! ## C9 — no query validation -/

/-- C9 (amended): the query engine performs no validation of `page` or
`page_size`: every request — negative pages and nonpositive page sizes
included — returns a result whose record list is a contiguous slice (by
Python slice semantics) of the ranked match list and whose `total` is
the full match count; no request is rejected as an invalid query before
scoring. -/
theorem searchServer_never_rejects (db : List MockProduct) (kw : List Char)
    (page pageSize : Int) :
    (searchServer db kw page pageSize).productList <:+: serverRanked db kw ∧
    (searchServer db kw page pageSize).total = (serverRanked db kw).length :=
  ⟨infix_pySlice _ _ _, rfl⟩

/-! ## C4 — mis-decoded glyph sequences -/

/-- C4 (amended): the mis-decoded sequence normalizes to the same output
as the correctly-encoded glyph for Ω, ≤ and ≥ (and Greek μ agrees with
the micro sign), but for µ, ° and ± the single-character replacement
fires inside the mojibake first, leaving a stray `â` in front of the
canonical output. -/
theorem normalize_misdecoded_glyphs :
    pyNormalize [chICircU, chCopyright] = pyNormalize [chOmegaU] ∧
    pyNormalize [chACircU, chPerMille, chCurrency] = pyNormalize [chLeq] ∧
    pyNormalize [chACircU, chPerMille, chYen] = pyNormalize [chGeq] ∧
    pyNormalize [chMuGreek] = pyNormalize [chMicro] ∧
    pyNormalize [chACircU, chMicro] = chACirc :: pyNormalize [chMicro] ∧
    pyNormalize [chACircU, chDeg] = chACirc :: pyNormalize [chDeg] ∧
    pyNormalize [chACircU, chPlusMinus] = chACirc :: pyNormalize [chPlusMinus] := by
  refine ⟨?_, ?_, ?_, ?_, ?_, ?_, ?_⟩ <;>
    norm_num +decide [pyNormalize, pyCollapse, pyWords, applyReplacements, replaceAll,
      normReplacements, pyLowerChar, isPyWs, Char.toLower, List.isPrefixOf,
      List.intercalate, List.intersperse]

/-! ## Ground evaluations of the server fixtures -/

theorem pyWords_nil : pyWords [] = [] := by simp [pyWords]

theorem scoreProduct_empty_kws (p : MockProduct) : scoreProduct p [] = 1 := by
  simp [scoreProduct]

theorem searchServer_browse_q_eval :
    serverRanked [prodQ1, prodQ2, prodQ3] [] = [prodQ1, prodQ2, prodQ3] := by
  norm_num [serverRanked, serverScored, scoreProduct_empty_kws, pyWords_nil]

/-- Counterexample to C9 as stated: a request with a negative page
number is not rejected before scoring: against a 3-record catalog,
`page = -1, page_size = 2` returns the end-relative slice `[q1]`
(Python negative indexing), and `page_size = 0` returns an empty slice —
both with the correct total and no error. -/
theorem searchServer_negative_page_returns_slice :
    (searchServer [prodQ1, prodQ2, prodQ3] [] (-1) 2).productList = [prodQ1] ∧
    (searchServer [prodQ1, prodQ2, prodQ3] [] (-1) 2).total = 3 ∧
    (searchServer [prodQ1, prodQ2, prodQ3] [] 1 0).productList = [] ∧
    (searchServer [prodQ1, prodQ2, prodQ3] [] 1 0).total = 3 := by
  refine ⟨?_, ?_, ?_, ?_⟩ <;>
    norm_num [searchServer, searchServer_browse_q_eval, pySlice, pySliceIdx]

/-! ## C5 — keyword-mode ordering -/

theorem pySlice_sublist (start stop : Int) (l : List α) :
    (pySlice start stop l).Sublist l :=
  (infix_pySlice start stop l).sublist

instance : IsTotal (ℚ × MockProduct) (fun x y => y.1 ≤ x.1) :=
  ⟨fun a b => le_total b.1 a.1⟩

instance : IsTrans (ℚ × MockProduct) (fun x y => y.1 ≤ x.1) :=
  ⟨fun _ _ _ h1 h2 => le_trans h2 h1⟩

theorem serverScored_score (db : List MockProduct) (kw : List Char) :
    ∀ x ∈ serverScored db kw, x.1 = scoreProduct x.2 (pyWords kw) := by
  intro x hx
  simp only [serverScored, List.mem_filterMap] at hx
  obtain ⟨p, _, he⟩ := hx
  by_cases h : 0 < scoreProduct p (pyWords kw)
  · rw [if_pos h] at he
    obtain rfl : (scoreProduct p (pyWords kw), p) = x := Option.some.inj he
    rfl
  · rw [if_neg h] at he
    exact absurd he (by simp)

/-- C5 (amended): in keyword mode the returned page is ordered by
aggregate score descending only; ties are left in catalog (insertion)
order by the stable sort — stock and code are *not* consulted. -/
theorem searchServer_keyword_order (db : List MockProduct) (kw : List Char)
    (page pageSize : Int) (hk : pyWords kw ≠ []) :
    ((searchServer db kw page pageSize).productList).Pairwise
      (fun a b => scoreProduct b (pyWords kw) ≤ scoreProduct a (pyWords kw)) := by
  have hsorted : (List.insertionSort (fun x y : ℚ × MockProduct => y.1 ≤ x.1)
      (serverScored db kw)).Pairwise (fun x y => y.1 ≤ x.1) :=
    List.sorted_insertionSort _ _
  have hmem : ∀ x ∈ List.insertionSort (fun x y : ℚ × MockProduct => y.1 ≤ x.1)
      (serverScored db kw), x.1 = scoreProduct x.2 (pyWords kw) := fun x hx =>
    serverScored_score db kw x ((List.perm_insertionSort _ _).mem_iff.mp hx)
  have h2 : (serverRanked db kw).Pairwise
      (fun a b => scoreProduct b (pyWords kw) ≤ scoreProduct a (pyWords kw)) := by
    unfold serverRanked
    rw [List.pairwise_map]
    refine hsorted.imp_of_mem ?_
    intro a b ha hb hr
    rw [← hmem a ha, ← hmem b hb]
    exact hr
  exact h2.sublist (pySlice_sublist _ _ _)

theorem pyWords_r1 : pyWords ['r', '1'] = [['r', '1']] := by
  norm_num +decide [pyWords, isPyWs]

/-- Witness for C5 (amended): concrete one-product keyword query whose
page is score-ordered. -/
theorem searchServer_keyword_order_witness :
    ((searchServer [prodR1a] "r1".data 1 10).productList).Pairwise
      (fun a b => scoreProduct b (pyWords "r1".data) ≤ scoreProduct a (pyWords "r1".data)) :=
  searchServer_keyword_order [prodR1a] "r1".data 1 10 (by
    norm_num [pyWords_r1])

theorem pyNormalize_r1 : pyNormalize ['r', '1'] = ['r', '1'] := by
  norm_num +decide [pyNormalize, pyCollapse, pyWords, applyReplacements, replaceAll,
    normReplacements, pyLowerChar, isPyWs, Char.toLower, List.isPrefixOf,
    List.intercalate, List.intersperse]

theorem pyNormalize_a : pyNormalize ['a'] = ['a'] := by
  norm_num +decide [pyNormalize, pyCollapse, pyWords, applyReplacements, replaceAll,
    normReplacements, pyLowerChar, isPyWs, Char.toLower, List.isPrefixOf,
    List.intercalate, List.intersperse]

theorem pyNormalize_b : pyNormalize ['b'] = ['b'] := by
  norm_num +decide [pyNormalize, pyCollapse, pyWords, applyReplacements, replaceAll,
    normReplacements, pyLowerChar, isPyWs, Char.toLower, List.isPrefixOf,
    List.intercalate, List.intersperse]

theorem pyNormalize_empty : pyNormalize [] = [] := by
  norm_num +decide [pyNormalize, pyCollapse, pyWords, applyReplacements, replaceAll,
    normReplacements, pyLowerChar, isPyWs, Char.toLower, List.isPrefixOf,
    List.intercalate, List.intersperse]

theorem combinedText_r1a :
    combinedText prodR1a = ['a', ' ', 'r', '1', ' ', ' ', ' ', ' ', ' '] := by
  norm_num [combinedText, normFields, prodR1a, pyNormalize_r1, pyNormalize_a,
    pyNormalize_empty, List.intercalate, List.intersperse]

theorem combinedText_r1b :
    combinedText prodR1b = ['b', ' ', 'r', '1', ' ', ' ', ' ', ' ', ' '] := by
  norm_num [combinedText, normFields, prodR1b, pyNormalize_r1, pyNormalize_b,
    pyNormalize_empty, List.intercalate, List.intersperse]

theorem keywordContrib_r1a : keywordContrib ['r', '1'] prodR1a = 1 := by
  simp only [keywordContrib, combinedText_r1a]
  norm_num [subIn, List.isPrefixOf]

theorem keywordContrib_r1b : keywordContrib ['r', '1'] prodR1b = 1 := by
  simp only [keywordContrib, combinedText_r1b]
  norm_num [subIn, List.isPrefixOf]

theorem keywordMatched_r1a : keywordMatched ['r', '1'] prodR1a = true := by
  simp only [keywordMatched, combinedText_r1a]
  norm_num [subIn, List.isPrefixOf]

theorem keywordMatched_r1b : keywordMatched ['r', '1'] prodR1b = true := by
  simp only [keywordMatched, combinedText_r1b]
  norm_num [subIn, List.isPrefixOf]

theorem scoreProduct_r1a : scoreProduct prodR1a [['r', '1']] = 1 := by
  norm_num [scoreProduct, pyNormalize_r1, keywordMatched_r1a, keywordContrib_r1a]

theorem scoreProduct_r1b : scoreProduct prodR1b [['r', '1']] = 1 := by
  norm_num [scoreProduct, pyNormalize_r1, keywordMatched_r1b, keywordContrib_r1b]

/-- Counterexample to C5 as stated: two records tie at score 1 for the
query `r1`; the claim's stock-descending tie-break would place the
stock-100 record `b` first, but the engine keeps catalog order and
returns the stock-5 record `a` first. -/
theorem searchServer_ties_not_broken_by_stock :
    (searchServer [prodR1a, prodR1b] "r1".data 1 10).productList = [prodR1a, prodR1b] ∧
    scoreProduct prodR1a (pyWords "r1".data) = scoreProduct prodR1b (pyWords "r1".data) ∧
    prodR1a.stockNumber < prodR1b.stockNumber := by
  have h1 : serverScored [prodR1a, prodR1b] ['r', '1'] = [(1, prodR1a), (1, prodR1b)] := by
    norm_num [serverScored, pyWords_r1, scoreProduct_r1a, scoreProduct_r1b,
      List.filterMap_cons, List.filterMap_nil]
  refine ⟨?_, ?_, ?_⟩
  · norm_num [searchServer, serverRanked, h1, pySlice, pySliceIdx]
  · norm_num [pyWords_r1, scoreProduct_r1a, scoreProduct_r1b]
  · norm_num [prodR1a, prodR1b]

/-! ## C1 — browse-all ordering of the mock database -/

theorem bulkLt_trichotomy (x y : Option ℚ) : bulkLt x y ∨ x = y ∨ bulkLt y x := by
  rcases x with _ | x <;> rcases y with _ | y <;> simp [bulkLt]
  exact lt_trichotomy x y

theorem bulkLt_trans {x y z : Option ℚ} : bulkLt x y → bulkLt y z → bulkLt x z := by
  rcases x with _ | x <;> rcases y with _ | y <;> rcases z with _ | z <;>
    simp [bulkLt]
  exact fun h1 h2 => lt_trans h1 h2

instance : IsTotal DbProduct browseRel := ⟨by
  intro a b
  rcases bulkLt_trichotomy (minPosPrice a) (minPosPrice b) with h | h | h
  · exact Or.inl (Or.inl h)
  · rcases lt_trichotomy a.stockNumber b.stockNumber with hs | hs | hs
    · exact Or.inr (Or.inr ⟨h.symm, Or.inl hs⟩)
    · rcases le_total a.productCode b.productCode with hc | hc
      · exact Or.inl (Or.inr ⟨h, Or.inr ⟨hs, hc⟩⟩)
      · exact Or.inr (Or.inr ⟨h.symm, Or.inr ⟨hs.symm, hc⟩⟩)
    · exact Or.inl (Or.inr ⟨h, Or.inl hs⟩)
  · exact Or.inr (Or.inl h)⟩

instance : IsTrans DbProduct browseRel := ⟨by
  intro a b c hab hbc
  rcases hab with h1 | ⟨e1, h1⟩ <;> rcases hbc with h2 | ⟨e2, h2⟩
  · exact Or.inl (bulkLt_trans h1 h2)
  · exact Or.inl (by rw [← e2]; exact h1)
  · exact Or.inl (by rw [e1]; exact h2)
  · rcases h1 with hs1 | ⟨es1, hc1⟩ <;> rcases h2 with hs2 | ⟨es2, hc2⟩
    · exact Or.inr ⟨e1.trans e2, Or.inl (lt_trans hs2 hs1)⟩
    · exact Or.inr ⟨e1.trans e2, Or.inl (by rw [← es2]; exact hs1)⟩
    · exact Or.inr ⟨e1.trans e2, Or.inl (by rw [es1]; exact hs2)⟩
    · exact Or.inr ⟨e1.trans e2, Or.inr ⟨es1.trans es2, le_trans hc1 hc2⟩⟩⟩

/-- C1 (amended): in browse-all mode every returned page is ordered by
`browseRel` — minimum positive unit price over all tiers ascending,
records with no positive tier first (SQL `NULL` sorts first under
`ASC`), ties by stock descending, then by code ascending —, the page is
a contiguous window of that ordering (itself a permutation of the
catalog), and `total` is the catalog size. -/
theorem searchBrowse_order (db : List DbProduct) (page pageSize : Int) :
    ((searchBrowse db page pageSize).productList).Pairwise browseRel ∧
    (searchBrowse db page pageSize).total = db.length ∧
    (searchBrowse db page pageSize).productList <:+:
      List.insertionSort browseRel db ∧
    (List.insertionSort browseRel db).Perm db := by
  refine ⟨?_, rfl, infix_sqliteLimitOffset _ _ _, List.perm_insertionSort _ _⟩
  exact List.Pairwise.sublist ((infix_sqliteLimitOffset _ _ _).sublist)
    (List.sorted_insertionSort browseRel db)

theorem minPos_dbRowA : minPosPrice dbRowA = some (1/100) := by
  norm_num [minPosPrice, dbRowA, List.min?, min_def]

theorem minPos_dbRowB : minPosPrice dbRowB = some (3/100) := by
  norm_num [minPosPrice, dbRowB, List.min?]

theorem minPos_dbRowNoTier : minPosPrice dbRowNoTier = none := by
  norm_num [minPosPrice, dbRowNoTier, List.min?]

theorem browseRel_AB : browseRel dbRowA dbRowB := by
  left
  rw [minPos_dbRowA, minPos_dbRowB]
  show (1 : ℚ)/100 < 3/100
  norm_num

theorem browseRel_CA : browseRel dbRowNoTier dbRowA := by
  left
  rw [minPos_dbRowA, minPos_dbRowNoTier]
  exact trivial

theorem not_browseRel_AC : ¬ browseRel dbRowA dbRowNoTier := by
  rw [browseRel, minPos_dbRowA, minPos_dbRowNoTier]
  simp [bulkLt]

/-- Counterexample to C1 as stated: the claim's key is the unit price at
the *highest* min-quantity tier with a positive price, under which row
`b` (0.03) should precede row `a` (0.05 at its quantity-100 tier); the
engine instead sorts by the *minimum* positive price (0.01 for `a`) and
returns `a` first.  Also, a record with no usable price tier sorts
*first*, not last: SQL `NULL` precedes every value under `ASC`. -/
theorem searchBrowse_counterexample :
    (searchBrowse [dbRowA, dbRowB] 1 10).productList = [dbRowA, dbRowB] ∧
    specBestBulkPrice dbRowA = some (1/20) ∧
    specBestBulkPrice dbRowB = some (3/100) ∧
    ((3 : ℚ)/100) < 1/20 ∧
    (searchBrowse [dbRowA, dbRowNoTier] 1 10).productList = [dbRowNoTier, dbRowA] ∧
    minPosPrice dbRowNoTier = none := by
  refine ⟨?_, ?_, ?_, by norm_num, ?_, minPos_dbRowNoTier⟩
  · show sqliteLimitOffset 10 0
        (if browseRel dbRowA dbRowB then [dbRowA, dbRowB] else [dbRowB, dbRowA]) =
      [dbRowA, dbRowB]
    rw [if_pos browseRel_AB]
    norm_num [sqliteLimitOffset]
  · norm_num [specBestBulkPrice, dbRowA]
  · norm_num [specBestBulkPrice, dbRowB]
  · show sqliteLimitOffset 10 0
        (if browseRel dbRowA dbRowNoTier then [dbRowA, dbRowNoTier]
          else [dbRowNoTier, dbRowA]) = [dbRowNoTier, dbRowA]
    rw [if_neg not_browseRel_AC]
    norm_num [sqliteLimitOffset]

/-! ## C3 — AND semantics of the multi-token filter -/

theorem bestWeighted_nonneg (kw : List Char) (p : MockProduct) :
    0 ≤ bestWeighted kw p := by
  unfold bestWeighted
  generalize normFields p = l
  suffices h : ∀ (l : List (ℚ × List Char)) (acc : ℚ), 0 ≤ acc →
      0 ≤ l.foldl (fun acc wf =>
        if wf.2 = [] then acc else max acc (wf.1 * kwFieldRaw kw wf.2)) acc by
    exact h l 0 le_rfl
  intro l
  induction l with
  | nil => intro acc h; exact h
  | cons wf rest ih =>
    intro acc h
    refine ih _ ?_
    by_cases hw : wf.2 = []
    · simpa [hw] using h
    · simp only [if_neg hw]
      exact le_trans h (le_max_left _ _)

theorem keywordContrib_nonneg (kw : List Char) (p : MockProduct) :
    0 ≤ keywordContrib kw p := by
  unfold keywordContrib
  split
  · exact zero_le_one
  · exact bestWeighted_nonneg kw p

/-- C3 (amended): a record is included in the result set (its score is
positive) iff every token "matches" it in the engine's sense: the
normalized token is a substring of the combined field text, or its best
*weighted* field score — the per-field fuzzy value multiplied by the
field weight 1.5 (code/model), 1.2 (name/brand) or 1.0 — reaches 0.75.
Because the weight is applied before the threshold, a raw ratio as low
as 0.5 on the model field counts as a match.  A record matching only
k-1 of k tokens is still never included. -/
theorem scoreProduct_pos_iff (p : MockProduct) (kws : List (List Char)) :
    0 < scoreProduct p kws ↔
      ∀ kw ∈ kws, keywordMatched (pyNormalize kw) p = true := by
  by_cases hk : kws = []
  · subst hk; simp [scoreProduct]
  · simp only [scoreProduct, if_neg hk]
    by_cases hn : (kws.filter fun kw => keywordMatched (pyNormalize kw) p).length <
        kws.length
    · rw [if_pos hn]
      constructor
      · intro h; exact absurd h (lt_irrefl 0)
      · intro hall
        have heq : (kws.filter fun kw => keywordMatched (pyNormalize kw) p) = kws :=
          List.filter_eq_self.mpr hall
        rw [heq] at hn
        exact absurd hn (lt_irrefl _)
    · rw [if_neg hn]
      have hle := List.length_filter_le (fun kw => keywordMatched (pyNormalize kw) p) kws
      have heq : (kws.filter fun kw => keywordMatched (pyNormalize kw) p).length =
          kws.length := le_antisymm hle (not_lt.mp hn)
      have hfil : (kws.filter fun kw => keywordMatched (pyNormalize kw) p) = kws :=
        (List.filter_sublist _).eq_of_length heq
      constructor
      · intro _ kw hkw
        have hmem : kw ∈ kws.filter fun kw => keywordMatched (pyNormalize kw) p := by
          rw [hfil]; exact hkw
        exact (List.mem_filter.mp hmem).2
      · intro _
        have hlen : 0 < (kws.length : ℚ) :=
          Nat.cast_pos.mpr (List.length_pos.mpr hk)
        have htot : 0 ≤ (kws.map fun kw => keywordContrib (pyNormalize kw) p).sum := by
          refine List.sum_nonneg ?_
          intro x hx
          obtain ⟨kw, _, rfl⟩ := List.mem_map.mp hx
          exact keywordContrib_nonneg _ _
        have h1 : 0 ≤ (7 : ℚ)/10 *
            ((kws.map fun kw => keywordContrib (pyNormalize kw) p).sum / kws.length) := by
          positivity
        rw [heq]
        have h2 : ((kws.length : ℚ)) / kws.length = 1 := div_self (ne_of_gt hlen)
        rw [h2]
        linarith

theorem pyWords_cons_ws {c : Char} {t : List Char} (h : isPyWs c = true) :
    pyWords (c :: t) = pyWords t := by
  rw [pyWords.eq_def]
  simp [h]

theorem pyWords_cons_word {c : Char} {t : List Char} (h : isPyWs c = false) :
    pyWords (c :: t) =
      ((c :: t).takeWhile (fun d => !isPyWs d)) ::
        pyWords ((c :: t).dropWhile (fun d => !isPyWs d)) := by
  rw [pyWords.eq_def]
  simp [h]

theorem roMatches_of_no_block (a b : List Char) (h : (bestBlock a b).2.2 = 0) :
    roMatches a b = 0 := by
  unfold roMatches
  rw [dif_neg]
  intro hc
  exact absurd (h ▸ hc.1) (lt_irrefl 0)

theorem pyWords_abcd_abef :
    pyWords ['a', 'b', 'c', 'd', ' ', 'a', 'b', 'e', 'f'] =
      [['a', 'b', 'c', 'd'], ['a', 'b', 'e', 'f']] := by
  norm_num +decide [pyWords_cons_ws, pyWords_cons_word, pyWords_nil, isPyWs]

theorem pyNormalize_abcd :
    pyNormalize ['a', 'b', 'c', 'd'] = ['a', 'b', 'c', 'd'] := by
  norm_num +decide [pyNormalize, pyCollapse, pyWords, applyReplacements, replaceAll,
    normReplacements, pyLowerChar, isPyWs, Char.toLower, List.isPrefixOf,
    List.intercalate, List.intersperse]

theorem pyNormalize_abef :
    pyNormalize ['a', 'b', 'e', 'f'] = ['a', 'b', 'e', 'f'] := by
  norm_num +decide [pyNormalize, pyCollapse, pyWords, applyReplacements, replaceAll,
    normReplacements, pyLowerChar, isPyWs, Char.toLower, List.isPrefixOf,
    List.intercalate, List.intersperse]

theorem normFields_abef :
    normFields prodAbef =
      [(3/2, []), (3/2, ['a', 'b', 'e', 'f']), (6/5, []), (6/5, []),
        (1, []), (1, []), (1, [])] := by
  norm_num [normFields, prodAbef, pyNormalize_abef, pyNormalize_empty]

set_option maxRecDepth 4096 in
theorem combinedText_abef :
    combinedText prodAbef =
      [' ', 'a', 'b', 'e', 'f', ' ', ' ', ' ', ' ', ' '] := by
  norm_num [combinedText, normFields, prodAbef, pyNormalize_abef, pyNormalize_empty,
    List.intercalate, List.intersperse]

theorem roMatches_abcd_abef :
    roMatches ['a', 'b', 'c', 'd'] ['a', 'b', 'e', 'f'] = 2 := by
  have hb : bestBlock ['a', 'b', 'c', 'd'] ['a', 'b', 'e', 'f'] = (0, 0, 2) := by decide
  have h1 : roMatches ['c', 'd'] ['e', 'f'] = 0 := roMatches_of_no_block _ _ (by decide)
  have h2 : roMatches ([] : List Char) [] = 0 := roMatches_of_no_block _ _ (by decide)
  unfold roMatches
  rw [hb, dif_pos (by decide)]
  norm_num [h1, h2]

theorem fuzzyRatioD_abcd_abef :
    fuzzyRatioD ['a', 'b', 'c', 'd'] ['a', 'b', 'e', 'f'] = 1/2 := by
  norm_num +decide [fuzzyRatioD, seqRatio, roMatches_abcd_abef, pyLowerChar,
    Char.toLower]

theorem fuzzyRatioD_abcd_nil : fuzzyRatioD ['a', 'b', 'c', 'd'] [] = 0 := by
  have h : roMatches ['a', 'b', 'c', 'd'] [] = 0 := roMatches_of_no_block _ _ (by decide)
  norm_num +decide [fuzzyRatioD, seqRatio, h, pyLowerChar, Char.toLower]

theorem fieldFuzzy_abcd_abef :
    fieldFuzzy ['a', 'b', 'c', 'd'] ['a', 'b', 'e', 'f'] = 1/2 := by
  have hw : pyWords ['a', 'b', 'e', 'f'] = [['a', 'b', 'e', 'f']] := by
    norm_num +decide [pyWords_cons_ws, pyWords_cons_word, pyWords_nil, isPyWs]
  norm_num [fieldFuzzy, hw, fuzzyRatioD_abcd_abef]

theorem fieldFuzzy_abcd_nil : fieldFuzzy ['a', 'b', 'c', 'd'] [] = 0 := by
  norm_num [fieldFuzzy, pyWords_nil, fuzzyRatioD_abcd_nil]

theorem bestWeighted_abcd_abef : bestWeighted ['a', 'b', 'c', 'd'] prodAbef = 3/4 := by
  norm_num +decide [bestWeighted, normFields_abef, kwFieldRaw, fieldFuzzy_abcd_abef]

theorem keywordMatched_abcd_abef :
    keywordMatched ['a', 'b', 'c', 'd'] prodAbef = true := by
  norm_num +decide [keywordMatched, combinedText_abef, bestWeighted_abcd_abef]

theorem keywordMatched_abef_abef :
    keywordMatched ['a', 'b', 'e', 'f'] prodAbef = true := by
  norm_num +decide [keywordMatched, combinedText_abef]

theorem keywordContrib_abcd_abef :
    keywordContrib ['a', 'b', 'c', 'd'] prodAbef = 3/4 := by
  norm_num +decide [keywordContrib, combinedText_abef, bestWeighted_abcd_abef]

theorem keywordContrib_abef_abef :
    keywordContrib ['a', 'b', 'e', 'f'] prodAbef = 1 := by
  norm_num +decide [keywordContrib, combinedText_abef]

theorem scoreProduct_abef_eval :
    scoreProduct prodAbef [['a', 'b', 'c', 'd'], ['a', 'b', 'e', 'f']] = 73/80 := by
  norm_num +decide [scoreProduct, pyNormalize_abcd, pyNormalize_abef,
    keywordMatched_abcd_abef, keywordMatched_abef_abef, keywordContrib_abcd_abef,
    keywordContrib_abef_abef]

/-- Counterexample to C3 as stated: for the two-token query `abcd abef`
the record with model `abef` is included (score 73/80 > 0, sole result
of the page), yet the token `abcd` is neither a substring of any field
nor within fuzzy ratio 0.75 of one — its best raw ratio is 0.5 on the
model field, which only crosses the threshold after the ×1.5 model
weight. -/
theorem scoreProduct_includes_without_field_match :
    0 < scoreProduct prodAbef (pyWords "abcd abef".data) ∧
    (searchServer [prodAbef] "abcd abef".data 1 10).productList = [prodAbef] ∧
    ¬ (∀ kw ∈ pyWords "abcd abef".data, specTokenFieldMatch (pyNormalize kw) prodAbef) := by
  have hw : pyWords "abcd abef".data =
      [['a', 'b', 'c', 'd'], ['a', 'b', 'e', 'f']] := pyWords_abcd_abef
  refine ⟨?_, ?_, ?_⟩
  · rw [hw, scoreProduct_abef_eval]; norm_num
  · have h1 : serverScored [prodAbef] "abcd abef".data = [(73/80, prodAbef)] := by
      norm_num [serverScored, hw, scoreProduct_abef_eval, List.filterMap_cons,
        List.filterMap_nil]
    norm_num [searchServer, serverRanked, h1, pySlice, pySliceIdx]
  · intro hall
    have h1 := hall ['a', 'b', 'c', 'd'] (by rw [hw]; simp)
    rw [pyNormalize_abcd] at h1
    revert h1
    norm_num [specTokenFieldMatch, normFields_abef, fieldFuzzy_abcd_abef,
      fieldFuzzy_abcd_nil]
    decide

/-- Counterexample to C4 as stated: normalizing the mis-decoded byte
sequence for µ (`Âµ`) gives `âu`, not the `u` that the correctly-encoded
glyph gives. -/
theorem normalize_misdecoded_micro_differs :
    pyNormalize [chACircU, chMicro] ≠ pyNormalize [chMicro] := by
  norm_num +decide [pyNormalize, pyCollapse, pyWords, applyReplacements, replaceAll,
    normReplacements, pyLowerChar, isPyWs, Char.toLower, List.isPrefixOf,
    List.intercalate, List.intersperse]

/-! ## C6 — idempotence of the normalizer

### Character-level lemmas -/

theorem toNat_ofNat_valid (n : Nat) (h : n < 55296) : (Char.ofNat n).toNat = n := by
  unfold Char.ofNat
  rw [dif_pos (Or.inl h)]
  unfold Char.ofNatAux Char.toNat
  simp [UInt32.toNat, BitVec.toNat_ofNatLt]

theorem char_toLower_of_not_upper {c : Char}
    (h : ¬(c.toNat ≥ 65 ∧ c.toNat ≤ 90)) : c.toLower = c := by
  unfold Char.toLower
  exact if_neg h

theorem char_toLower_of_upper {c : Char}
    (h : c.toNat ≥ 65 ∧ c.toNat ≤ 90) : c.toLower = Char.ofNat (c.toNat + 32) := by
  unfold Char.toLower
  exact if_pos h

theorem ne_of_toNat_ne {c d : Char} (h : c.toNat ≠ d.toNat) : c ≠ d :=
  fun he => h (congrArg Char.toNat he)

theorem pyLowerChar_idem (c : Char) :
    pyLowerChar (pyLowerChar c) = pyLowerChar c := by
  by_cases h1 : c = chOmegaU
  · subst h1; decide
  by_cases h2 : c = chICircU
  · subst h2; decide
  by_cases h3 : c = chACircU
  · subst h3; decide
  have hc : pyLowerChar c = c.toLower := by
    unfold pyLowerChar
    rw [if_neg h1, if_neg h2, if_neg h3]
  rw [hc]
  by_cases hup : c.toNat ≥ 65 ∧ c.toNat ≤ 90
  · have hlow : c.toLower = Char.ofNat (c.toNat + 32) := char_toLower_of_upper hup
    have hval : (c.toLower).toNat = c.toNat + 32 := by
      rw [hlow]; exact toNat_ofNat_valid _ (by omega)
    have hb : (c.toLower).toNat ≤ 122 := by omega
    have e1 : c.toLower ≠ chOmegaU := ne_of_toNat_ne (by
      have : chOmegaU.toNat = 937 := by decide
      omega)
    have e2 : c.toLower ≠ chICircU := ne_of_toNat_ne (by
      have : chICircU.toNat = 206 := by decide
      omega)
    have e3 : c.toLower ≠ chACircU := ne_of_toNat_ne (by
      have : chACircU.toNat = 194 := by decide
      omega)
    unfold pyLowerChar
    rw [if_neg e1, if_neg e2, if_neg e3]
    exact char_toLower_of_not_upper (by omega)
  · have hlow : c.toLower = c := char_toLower_of_not_upper hup
    rw [hlow]
    unfold pyLowerChar
    rw [if_neg h1, if_neg h2, if_neg h3, hlow]

theorem map_eq_self_of_fix {α : Type} {f : α → α} {l : List α}
    (h : ∀ a ∈ l, f a = a) : l.map f = l := by
  induction l with
  | nil => rfl
  | cons a t ih =>
    simp only [List.map_cons, h a (List.mem_cons_self a t),
      ih (fun b hb => h b (List.mem_cons_of_mem a hb))]

/-! ### `replaceAll` unfolding and occurrence lemmas -/

theorem replaceAll_nil (pat rep : List Char) : replaceAll pat rep [] = [] := by
  rw [replaceAll.eq_def]

theorem replaceAll_cons_pos {pat : List Char} (rep : List Char) {c : Char}
    {t : List Char} (h : pat ≠ [] ∧ pat.isPrefixOf (c :: t) = true) :
    replaceAll pat rep (c :: t) =
      rep ++ replaceAll pat rep ((c :: t).drop pat.length) := by
  rw [replaceAll.eq_def]
  simp only [dif_pos h]

theorem replaceAll_cons_neg {pat : List Char} (rep : List Char) {c : Char}
    {t : List Char} (h : ¬(pat ≠ [] ∧ pat.isPrefixOf (c :: t) = true)) :
    replaceAll pat rep (c :: t) = c :: replaceAll pat rep t := by
  rw [replaceAll.eq_def]
  simp only [dif_neg h]

theorem replaceAll_no_occur (pat rep s : List Char) :
    ¬ pat <:+: s → replaceAll pat rep s = s := by
  induction s using replaceAll.induct pat rep with
  | case1 => intro _; exact replaceAll_nil pat rep
  | case2 c t hg ih =>
    intro h
    exact absurd (List.isPrefixOf_iff_prefix.mp hg.2).isInfix h
  | case3 c t hg ih =>
    intro h
    rw [replaceAll_cons_neg rep hg,
      ih (fun hi => h (List.infix_cons_iff.mpr (Or.inr hi)))]

theorem prefix_of_replaceAll (pat rep : List Char) (hrep : rep ≠ [])
    (s : List Char) :
    ∀ q : List Char, (∀ a ∈ q, a ∉ rep) → q <+: replaceAll pat rep s → q <+: s := by
  induction s using replaceAll.induct pat rep with
  | case1 =>
    intro q _ hq
    rw [replaceAll_nil] at hq
    exact hq
  | case2 c t hg ih =>
    intro q hdisj hq
    rw [replaceAll_cons_pos rep hg] at hq
    cases q with
    | nil => exact List.nil_prefix
    | cons a q' =>
      obtain ⟨r0, rep', rfl⟩ : ∃ r0 rep', rep = r0 :: rep' := by
        cases rep with
        | nil => exact absurd rfl hrep
        | cons r0 rep' => exact ⟨r0, rep', rfl⟩
      have : a = r0 := (List.cons_prefix_cons.mp hq).1
      exact absurd (this ▸ List.mem_cons_self r0 rep')
        (hdisj a (List.mem_cons_self a q'))
  | case3 c t hg ih =>
    intro q hdisj hq
    rw [replaceAll_cons_neg rep hg] at hq
    cases q with
    | nil => exact List.nil_prefix
    | cons a q' =>
      obtain ⟨rfl, hq'⟩ := List.cons_prefix_cons.mp hq
      exact List.cons_prefix_cons.mpr
        ⟨rfl, ih q' (fun b hb => hdisj b (List.mem_cons_of_mem a hb)) hq'⟩

theorem infix_append_right_of_disjoint (pat : List Char) (hpat : pat ≠ [])
    (x y : List Char) (hd : ∀ a ∈ pat, a ∉ x) (h : pat <:+: x ++ y) :
    pat <:+: y := by
  induction x with
  | nil => simpa using h
  | cons c x' ih =>
    rw [List.cons_append, List.infix_cons_iff] at h
    rcases h with hp | hi
    · obtain ⟨p0, pat', rfl⟩ : ∃ p0 pat', pat = p0 :: pat' := by
        cases pat with
        | nil => exact absurd rfl hpat
        | cons p0 pat' => exact ⟨p0, pat', rfl⟩
      have he : p0 = c := (List.cons_prefix_cons.mp hp).1
      exact absurd (List.mem_cons_self p0 pat')
        (fun hm => hd p0 hm (he ▸ List.mem_cons_self c x'))
    · exact ih (fun a ha hm => hd a ha (List.mem_cons_of_mem c hm)) hi

theorem not_infix_replaceAll_self (pat rep : List Char) (hpat : pat ≠ [])
    (hrep : rep ≠ []) (hdisj : ∀ a ∈ pat, a ∉ rep) (s : List Char) :
    ¬ pat <:+: replaceAll pat rep s := by
  induction s using replaceAll.induct pat rep with
  | case1 =>
    rw [replaceAll_nil]
    simp [List.infix_nil, hpat]
  | case2 c t hg ih =>
    rw [replaceAll_cons_pos rep hg]
    intro hin
    exact ih (infix_append_right_of_disjoint pat hpat rep _ hdisj hin)
  | case3 c t hg ih =>
    rw [replaceAll_cons_neg rep hg]
    intro hin
    rcases List.infix_cons_iff.mp hin with hp | hi
    · obtain ⟨p0, pat', rfl⟩ : ∃ p0 pat', pat = p0 :: pat' := by
        cases pat with
        | nil => exact absurd rfl hpat
        | cons p0 pat' => exact ⟨p0, pat', rfl⟩
      obtain ⟨rfl, hq'⟩ := List.cons_prefix_cons.mp hp
      have hpre : pat' <+: t :=
        prefix_of_replaceAll _ rep hrep t pat'
          (fun b hb => hdisj b (List.mem_cons_of_mem _ hb)) hq'
      exact hg ⟨hpat, List.isPrefixOf_iff_prefix.mpr
        (List.cons_prefix_cons.mpr ⟨rfl, hpre⟩)⟩
    · exact ih hi

theorem not_infix_replaceAll_other (pat2 rep pat : List Char) (hpat : pat ≠ [])
    (hrep : rep ≠ []) (hdisj : ∀ a ∈ pat, a ∉ rep) (s : List Char) :
    ¬ pat <:+: s → ¬ pat <:+: replaceAll pat2 rep s := by
  induction s using replaceAll.induct pat2 rep with
  | case1 =>
    intro _
    rw [replaceAll_nil]
    simp [List.infix_nil, hpat]
  | case2 c t hg ih =>
    intro hs hin
    rw [replaceAll_cons_pos rep hg] at hin
    have hin' := infix_append_right_of_disjoint pat hpat rep _ hdisj hin
    exact ih (fun hd => hs (hd.trans (List.drop_suffix _ _).isInfix)) hin'
  | case3 c t hg ih =>
    intro hs hin
    rw [replaceAll_cons_neg rep hg] at hin
    rcases List.infix_cons_iff.mp hin with hp | hi
    · obtain ⟨p0, pat', rfl⟩ : ∃ p0 pat', pat = p0 :: pat' := by
        cases pat with
        | nil => exact absurd rfl hpat
        | cons p0 pat' => exact ⟨p0, pat', rfl⟩
      obtain ⟨rfl, hq'⟩ := List.cons_prefix_cons.mp hp
      have hpre : pat' <+: t :=
        prefix_of_replaceAll pat2 rep hrep t pat'
          (fun b hb => hdisj b (List.mem_cons_of_mem _ hb)) hq'
      exact hs (List.infix_cons_iff.mpr
        (Or.inl (List.cons_prefix_cons.mpr ⟨rfl, hpre⟩)))
    · exact ih (fun ht => hs (List.infix_cons_iff.mpr (Or.inr ht))) hi

theorem mem_replaceAll (pat rep s : List Char) :
    ∀ a, a ∈ replaceAll pat rep s → a ∈ s ∨ a ∈ rep := by
  induction s using replaceAll.induct pat rep with
  | case1 =>
    intro a ha
    rw [replaceAll_nil] at ha
    exact absurd ha (by simp)
  | case2 c t hg ih =>
    intro a ha
    rw [replaceAll_cons_pos rep hg] at ha
    rcases List.mem_append.mp ha with hm | hm
    · exact Or.inr hm
    · rcases ih a hm with hm2 | hm2
      · exact Or.inl ((List.drop_suffix _ _).sublist.subset hm2)
      · exact Or.inr hm2
  | case3 c t hg ih =>
    intro a ha
    rw [replaceAll_cons_neg rep hg] at ha
    rcases List.mem_cons.mp ha with rfl | hm
    · exact Or.inl (List.mem_cons_self _ _)
    · rcases ih a hm with hm2 | hm2
      · exact Or.inl (List.mem_cons_of_mem _ hm2)
      · exact Or.inr hm2

/-! ### `applyReplacements` lemmas -/

theorem applyReplacements_id (l : List (List Char × List Char)) (s : List Char)
    (h : ∀ pr ∈ l, ¬ pr.1 <:+: s) : applyReplacements l s = s := by
  induction l with
  | nil => rfl
  | cons q rest ih =>
    unfold applyReplacements
    rw [replaceAll_no_occur q.1 q.2 s (h q (List.mem_cons_self q rest))]
    exact ih (fun pr hpr => h pr (List.mem_cons_of_mem q hpr))

theorem applyReplacements_preserve (l : List (List Char × List Char))
    (pat : List Char) (hpat : pat ≠ [])
    (hl : ∀ pr ∈ l, pr.2 ≠ [] ∧ ∀ a ∈ pat, a ∉ pr.2) :
    ∀ s : List Char, ¬ pat <:+: s → ¬ pat <:+: applyReplacements l s := by
  induction l with
  | nil => intro s hs; exact hs
  | cons q rest ih =>
    intro s hs
    unfold applyReplacements
    refine ih (fun pr hpr => hl pr (List.mem_cons_of_mem q hpr)) _ ?_
    exact not_infix_replaceAll_other q.1 q.2 pat hpat
      (hl q (List.mem_cons_self q rest)).1
      (hl q (List.mem_cons_self q rest)).2 s hs

theorem applyReplacements_kills (l : List (List Char × List Char))
    (hne : ∀ pr ∈ l, pr.1 ≠ [] ∧ pr.2 ≠ [])
    (hdisj : ∀ pr ∈ l, ∀ qr ∈ l, ∀ a ∈ pr.1, a ∉ qr.2) :
    ∀ s, ∀ pr ∈ l, ¬ pr.1 <:+: applyReplacements l s := by
  induction l with
  | nil => intro s pr hpr; exact absurd hpr (by simp)
  | cons q rest ih =>
    intro s pr hpr
    unfold applyReplacements
    rcases List.mem_cons.mp hpr with rfl | hm
    · refine applyReplacements_preserve rest pr.1
        (hne pr hpr).1 ?_ _ ?_
      · intro r hr
        refine ⟨(hne r (List.mem_cons_of_mem pr hr)).2, ?_⟩
        intro a ha
        exact hdisj pr hpr r (List.mem_cons_of_mem pr hr) a ha
      · exact not_infix_replaceAll_self pr.1 pr.2 (hne pr hpr).1 (hne pr hpr).2
          (hdisj pr hpr pr hpr) s
    · exact ih (fun r hr => hne r (List.mem_cons_of_mem q hr))
        (fun r hr r2 hr2 => hdisj r (List.mem_cons_of_mem q hr) r2
          (List.mem_cons_of_mem q hr2)) _ pr hm

/-! ### `pyWords` / `pyCollapse` structure lemmas -/

theorem pyWords_spec (s : List Char) :
    ∀ w ∈ pyWords s, w ≠ [] ∧ ∀ c ∈ w, isPyWs c = false := by
  induction s using pyWords.induct with
  | case1 => simp [pyWords_nil]
  | case2 c t hws ih =>
    rw [pyWords_cons_ws hws]
    exact ih
  | case3 c t hws ih =>
    have hws' : isPyWs c = false := by
      simpa using hws
    rw [pyWords_cons_word hws']
    intro w hw
    rcases List.mem_cons.mp hw with rfl | hm
    · constructor
      · rw [List.takeWhile_cons_of_pos (by simp [hws'])]
        simp
      · intro a ha
        have := List.mem_takeWhile_imp ha
        simpa using this
    · exact ih w hm

theorem infix_of_mem_pyWords (s : List Char) : ∀ w ∈ pyWords s, w <:+: s := by
  induction s using pyWords.induct with
  | case1 => simp [pyWords_nil]
  | case2 c t hws ih =>
    rw [pyWords_cons_ws hws]
    intro w hw
    exact (ih w hw).trans (List.suffix_cons c t).isInfix
  | case3 c t hws ih =>
    have hws' : isPyWs c = false := by
      simpa using hws
    rw [pyWords_cons_word hws']
    intro w hw
    rcases List.mem_cons.mp hw with rfl | hm
    · exact (List.takeWhile_prefix _).isInfix
    · exact (ih w hm).trans (List.dropWhile_suffix _).isInfix

theorem takeWhile_nonws_append {w : List Char} (z : List Char)
    (hw : ∀ c ∈ w, isPyWs c = false) :
    (w ++ ' ' :: z).takeWhile (fun d => !isPyWs d) = w := by
  induction w with
  | nil =>
    rw [List.nil_append, List.takeWhile_cons_of_neg]
    decide
  | cons c w' ih =>
    rw [List.cons_append,
      List.takeWhile_cons_of_pos (by simp [hw c (List.mem_cons_self c w')]),
      ih (fun a ha => hw a (List.mem_cons_of_mem c ha))]

theorem dropWhile_nonws_append {w : List Char} (z : List Char)
    (hw : ∀ c ∈ w, isPyWs c = false) :
    (w ++ ' ' :: z).dropWhile (fun d => !isPyWs d) = ' ' :: z := by
  induction w with
  | nil =>
    rw [List.nil_append, List.dropWhile_cons_of_neg]
    decide
  | cons c w' ih =>
    rw [List.cons_append,
      List.dropWhile_cons_of_pos (by simp [hw c (List.mem_cons_self c w')]),
      ih (fun a ha => hw a (List.mem_cons_of_mem c ha))]

theorem pyWords_all_nonws {w : List Char} (hne : w ≠ [])
    (hw : ∀ c ∈ w, isPyWs c = false) : pyWords w = [w] := by
  cases w with
  | nil => exact absurd rfl hne
  | cons c t =>
    rw [pyWords_cons_word (hw c (List.mem_cons_self c t))]
    have ht : (c :: t).takeWhile (fun d => !isPyWs d) = c :: t :=
      List.takeWhile_eq_self_iff.mpr (fun a ha => by simp [hw a ha])
    have hd : (c :: t).dropWhile (fun d => !isPyWs d) = [] :=
      List.dropWhile_eq_nil_iff.mpr (fun a ha => by simp [hw a ha])
    rw [ht, hd, pyWords_nil]

theorem pyWords_word_append {w : List Char} (z : List Char) (hne : w ≠ [])
    (hw : ∀ c ∈ w, isPyWs c = false) :
    pyWords (w ++ ' ' :: z) = w :: pyWords z := by
  cases w with
  | nil => exact absurd rfl hne
  | cons c t =>
    rw [List.cons_append, pyWords_cons_word (hw c (List.mem_cons_self c t)),
      ← List.cons_append, takeWhile_nonws_append z hw,
      dropWhile_nonws_append z hw, pyWords_cons_ws (by decide)]

theorem pyWords_intercalate {ws : List (List Char)}
    (h : ∀ w ∈ ws, w ≠ [] ∧ ∀ c ∈ w, isPyWs c = false) :
    pyWords (List.intercalate [' '] ws) = ws := by
  induction ws with
  | nil => simp [List.intercalate, pyWords_nil]
  | cons w rest ih =>
    cases rest with
    | nil =>
      have hw := h w (List.mem_cons_self w [])
      simp only [List.intercalate, List.intersperse_singleton, List.join_cons,
        List.join_nil, List.append_nil]
      exact pyWords_all_nonws hw.1 hw.2
    | cons w2 rest2 =>
      have heq : List.intercalate [' '] (w :: w2 :: rest2) =
          w ++ ' ' :: List.intercalate [' '] (w2 :: rest2) := by
        simp [List.intercalate, List.intersperse_cons_cons]
      rw [heq, pyWords_word_append _ (h w (List.mem_cons_self w _)).1
        (h w (List.mem_cons_self w _)).2,
        ih (fun v hv => h v (List.mem_cons_of_mem w hv))]

theorem pyCollapse_idem (s : List Char) :
    pyCollapse (pyCollapse s) = pyCollapse s := by
  unfold pyCollapse
  rw [pyWords_intercalate (pyWords_spec s)]

theorem prefix_before_sep {pat : List Char} (hsp : ' ' ∉ pat) :
    ∀ {w z : List Char}, pat <+: w ++ ' ' :: z → pat <+: w := by
  induction pat with
  | nil => intro w z _; exact List.nil_prefix
  | cons p pat' ih =>
    intro w z h
    cases w with
    | nil =>
      rw [List.nil_append] at h
      obtain ⟨rfl, -⟩ := List.cons_prefix_cons.mp h
      exact absurd (List.mem_cons_self ' ' pat') hsp
    | cons c w' =>
      rw [List.cons_append] at h
      obtain ⟨rfl, h'⟩ := List.cons_prefix_cons.mp h
      exact List.cons_prefix_cons.mpr
        ⟨rfl, ih (fun hm => hsp (List.mem_cons_of_mem p hm)) h'⟩

theorem infix_append_sep {pat : List Char} (hpat : pat ≠ []) (hsp : ' ' ∉ pat) :
    ∀ {w z : List Char}, pat <:+: w ++ ' ' :: z → pat <:+: w ∨ pat <:+: z := by
  intro w z h
  induction w with
  | nil =>
    rw [List.nil_append, List.infix_cons_iff] at h
    rcases h with hp | hi
    · obtain ⟨p0, pat', rfl⟩ : ∃ p0 pat', pat = p0 :: pat' := by
        cases pat with
        | nil => exact absurd rfl hpat
        | cons p0 pat' => exact ⟨p0, pat', rfl⟩
      obtain ⟨rfl, -⟩ := List.cons_prefix_cons.mp hp
      exact absurd (List.mem_cons_self ' ' pat') hsp
    · exact Or.inr hi
  | cons c w' ih =>
    rw [List.cons_append, List.infix_cons_iff] at h
    rcases h with hp | hi
    · rw [← List.cons_append] at hp
      exact Or.inl (prefix_before_sep hsp hp).isInfix
    · rcases ih hi with h1 | h2
      · exact Or.inl (List.infix_cons_iff.mpr (Or.inr h1))
      · exact Or.inr h2

theorem infix_intercalate {pat : List Char} {ws : List (List Char)}
    (hpat : pat ≠ []) (hsp : ' ' ∉ pat)
    (h : pat <:+: List.intercalate [' '] ws) : ∃ w ∈ ws, pat <:+: w := by
  induction ws with
  | nil =>
    simp [List.intercalate] at h
    exact absurd h hpat
  | cons w rest ih =>
    cases rest with
    | nil =>
      refine ⟨w, List.mem_cons_self w [], ?_⟩
      simpa [List.intercalate] using h
    | cons w2 rest2 =>
      have heq : List.intercalate [' '] (w :: w2 :: rest2) =
          w ++ ' ' :: List.intercalate [' '] (w2 :: rest2) := by
        simp [List.intercalate, List.intersperse_cons_cons]
      rw [heq] at h
      rcases infix_append_sep hpat hsp h with h1 | h2
      · exact ⟨w, List.mem_cons_self w _, h1⟩
      · obtain ⟨v, hv, hh⟩ := ih h2
        exact ⟨v, List.mem_cons_of_mem w hv, hh⟩

theorem not_infix_pyCollapse {pat s : List Char} (hpat : pat ≠ [])
    (hsp : ' ' ∉ pat) (hs : ¬ pat <:+: s) : ¬ pat <:+: pyCollapse s := by
  intro h
  obtain ⟨w, hw, hinf⟩ := infix_intercalate hpat hsp h
  exact hs (hinf.trans (infix_of_mem_pyWords s w hw))

theorem mem_intercalate_space {ws : List (List Char)} {a : Char}
    (h : a ∈ List.intercalate [' '] ws) : (∃ w ∈ ws, a ∈ w) ∨ a = ' ' := by
  induction ws with
  | nil => simp [List.intercalate] at h
  | cons w rest ih =>
    cases rest with
    | nil =>
      simp [List.intercalate] at h
      exact Or.inl ⟨w, List.mem_cons_self w [], h⟩
    | cons w2 rest2 =>
      have heq : List.intercalate [' '] (w :: w2 :: rest2) =
          w ++ ' ' :: List.intercalate [' '] (w2 :: rest2) := by
        simp [List.intercalate, List.intersperse_cons_cons]
      rw [heq] at h
      rcases List.mem_append.mp h with hm | hm
      · exact Or.inl ⟨w, List.mem_cons_self w _, hm⟩
      · rcases List.mem_cons.mp hm with rfl | hm2
        · exact Or.inr rfl
        · rcases ih hm2 with ⟨v, hv, ha⟩ | he
          · exact Or.inl ⟨v, List.mem_cons_of_mem w hv, ha⟩
          · exact Or.inr he

theorem mem_pyCollapse {s : List Char} {a : Char} (h : a ∈ pyCollapse s) :
    a ∈ s ∨ a = ' ' := by
  rcases mem_intercalate_space h with ⟨w, hw, ha⟩ | he
  · exact Or.inl ((infix_of_mem_pyWords s w hw).sublist.subset ha)
  · exact Or.inr he

theorem mem_applyReplacements (l : List (List Char × List Char)) :
    ∀ s : List Char, ∀ a, a ∈ applyReplacements l s →
      a ∈ s ∨ ∃ pr ∈ l, a ∈ pr.2 := by
  induction l with
  | nil => intro s a h; exact Or.inl h
  | cons q rest ih =>
    intro s a h
    unfold applyReplacements at h
    rcases ih (replaceAll q.1 q.2 s) a h with hm | ⟨pr, hpr, hmem⟩
    · rcases mem_replaceAll q.1 q.2 s a hm with h1 | h2
      · exact Or.inl h1
      · exact Or.inr ⟨q, List.mem_cons_self q rest, h2⟩
    · exact Or.inr ⟨pr, List.mem_cons_of_mem q hpr, hmem⟩

theorem pyNormalize_lower_fixed (s : List Char) :
    ∀ a ∈ pyNormalize s, pyLowerChar a = a := by
  intro a ha
  unfold pyNormalize at ha
  rcases mem_pyCollapse ha with hm | rfl
  · rcases mem_applyReplacements normReplacements _ a hm with hm2 | ⟨pr, hpr, hmem⟩
    · obtain ⟨b, -, rfl⟩ := List.mem_map.mp hm2
      exact pyLowerChar_idem b
    · exact (show ∀ pr ∈ normReplacements, ∀ a ∈ pr.2, pyLowerChar a = a
        by decide) pr hpr a hmem
  · decide

theorem pyNormalize_no_pattern (s : List Char) :
    ∀ pr ∈ normReplacements, ¬ pr.1 <:+: pyNormalize s := by
  intro pr hpr
  unfold pyNormalize
  refine not_infix_pyCollapse ?_ ?_ ?_
  · exact (show ∀ pr ∈ normReplacements, pr.1 ≠ [] by decide) pr hpr
  · exact (show ∀ pr ∈ normReplacements, ' ' ∉ pr.1 by decide) pr hpr
  · exact applyReplacements_kills normReplacements (by decide) (by decide) _ pr hpr

/-- **C6.** Text normalization is idempotent: for every input string `x`,
`normalize_text(normalize_text(x)) == normalize_text(x)`.  After one pass
every character is fixed by lowercasing, no replacement pattern occurs in
the output (patterns and replacement strings are character-disjoint, and
whitespace collapsing cannot create a pattern since no pattern contains a
space), and whitespace collapsing is idempotent. -/
theorem pyNormalize_idem (s : List Char) :
    pyNormalize (pyNormalize s) = pyNormalize s := by
  have h1 : (pyNormalize s).map pyLowerChar = pyNormalize s :=
    map_eq_self_of_fix (pyNormalize_lower_fixed s)
  have h2 : applyReplacements normReplacements (pyNormalize s) = pyNormalize s :=
    applyReplacements_id _ _ (pyNormalize_no_pattern s)
  show pyCollapse (applyReplacements normReplacements
    ((pyNormalize s).map pyLowerChar)) = pyNormalize s
  rw [h1, h2]
  show pyCollapse (pyCollapse
      (applyReplacements normReplacements (s.map pyLowerChar))) =
    pyCollapse (applyReplacements normReplacements (s.map pyLowerChar))
  exact pyCollapse_idem _

end LHAtoLCSC
